import Mathlib

/-!
Shallow embedding of `pkg/backend/display/detailedDiff.go`: the diff-path
parser (`parseDiffPath`), single-step property lookup (`getProperty`), the
recursive diff-tree builder (`addDiff`) and the top-level driver
(`translateDetailedDiff`), together with theorems settling the spec claims.

Strings are embedded as `List Char`; Go `int` as `Int` (64-bit range checks
where `strconv.ParseInt` imposes them); Go maps as association lists with
replace-on-insert assignment and zero-value lookup; Go nil pointers as
`none`; fallible/faulting code as `Option` or an explicit outcome type.
-/

namespace DetailedDiff

/-- A parsed path element: either an array index (Go `int`) or a property
name (Go `string`), mirroring the `interface{}` elements produced by
`parseDiffPath`. -/
inductive PathElement where
  | idx (i : Int)
  | str (s : String)
deriving DecidableEq, Repr

/-- The parse errors `parseDiffPath` can return (one per `errors.New` /
`errors.Wrap` site in the source). -/
inductive ParseError where
  | missingClosingQuote
  | missingClosingBracketProperty
  | missingClosingBracketIndex
  | invalidArrayIndex
deriving DecidableEq, Repr

/-- Outcome of `parseDiffPath`: a parsed element list, a returned error, or
a Go runtime fault (index out of range). -/
inductive ParseOutcome where
  | ok (elems : List PathElement)
  | err (e : ParseError)
  | fault
deriving DecidableEq, Repr

/-- Embeds `strconv.ParseInt(s, 10, 0)` (Go `int` is 64-bit here): optional
single sign, then one or more decimal digits, rejected on empty digits, a
non-digit character, or a value outside [-2^63, 2^63-1]. -/
def parseInt64 (cs : List Char) : Option Int :=
  let digitsVal : List Char → Option Nat := fun ds =>
    if ds ≠ [] ∧ ds.all Char.isDigit then
      some (ds.foldl (fun a c => a * 10 + (c.toNat - 48)) 0)
    else
      none
  match cs with
  | '+' :: rest =>
    match digitsVal rest with
    | some n => if (n : Int) ≤ 2 ^ 63 - 1 then some (n : Int) else none
    | none => none
  | '-' :: rest =>
    match digitsVal rest with
    | some n => if (n : Int) ≤ 2 ^ 63 then some (-(n : Int)) else none
    | none => none
  | _ =>
    match digitsVal cs with
    | some n => if (n : Int) ≤ 2 ^ 63 - 1 then some (n : Int) else none
    | none => none

/-- Embeds the quoted-property-key scanning loop of `parseDiffPath`
(source lines 42-58): starting just after `["`, consume characters until an
unescaped `"`, unescaping the two-character sequence backslash-quote;
returns the key and the remaining input (starting right after the closing
quote), or `none` when the input ends before a closing quote. -/
def parseQuoted : List Char → List Char → Option (List Char × List Char)
  | [], _ => none
  | c :: rest, acc =>
    if c = '"' then
      some (acc.reverse, rest)
    else if c = '\\' ∧ rest.head? = some '"' then
      parseQuoted rest.tail ('"' :: acc)
    else
      parseQuoted rest (c :: acc)
termination_by cs _ => cs.length
decreasing_by
  · simp [List.length_tail]; omega
  · simp

theorem parseQuoted_rest_length (cs acc k r : List Char)
    (h : parseQuoted cs acc = some (k, r)) : r.length < cs.length := by
  induction cs, acc using parseQuoted.induct generalizing k r with
  | case1 acc => simp [parseQuoted] at h
  | case2 rest acc =>
    simp [parseQuoted] at h
    rcases h with ⟨-, rfl⟩
    simp
  | case3 c rest acc hq hesc ih =>
    simp only [parseQuoted, if_neg hq, if_pos hesc] at h
    have := ih k r h
    have ht : rest.tail.length ≤ rest.length := by
      simp [List.length_tail]
    simp only [List.length_cons]
    omega
  | case4 c rest acc hq hesc ih =>
    simp only [parseQuoted, if_neg hq, if_neg hesc] at h
    have := ih k r h
    simp only [List.length_cons]
    omega

theorem takeWhile_length_le (p : Char → Bool) (l : List Char) :
    (l.takeWhile p).length ≤ l.length := by
  induction l with
  | nil => simp
  | cons c rest ih =>
    simp only [List.takeWhile]
    cases p c
    · simp
    · simp
      omega

/-- Prepends a parsed element to the outcome of parsing the remaining
input (Go's `elements = append(elements, pathElement)` with errors and
faults cutting the loop short). -/
def consOutcome (e : PathElement) : ParseOutcome → ParseOutcome
  | .ok l => .ok (e :: l)
  | o => o

/-- Embeds `parseDiffPath` (source lines 14-86). The traversal state is the
remaining input; each loop iteration of the Go function is one recursive
call. `.fault` models the Go index-out-of-range panic of `path[1]` when the
input ends immediately after `[`. -/
def parseDiffPath : List Char → ParseOutcome
  | [] => .ok []
  | c :: rest =>
    if c = '.' then
      parseDiffPath rest
    else if c = '[' then
      match hr : rest with
      | [] => .fault
      | c2 :: rest2 =>
        if c2 = '"' then
          match hq : parseQuoted rest2 [] with
          | none => .err .missingClosingQuote
          | some (key, rest3) =>
            match rest3 with
            | ']' :: rest4 =>
              consOutcome (.str (String.mk key)) (parseDiffPath rest4)
            | _ => .err .missingClosingBracketProperty
        else
          let content := rest.takeWhile (fun x => decide (x ≠ ']'))
          if content.length = rest.length then
            .err .missingClosingBracketIndex
          else
            match parseInt64 content with
            | none => .err .invalidArrayIndex
            | some n =>
              consOutcome (.idx n) (parseDiffPath (rest.drop (content.length + 1)))
    else
      let name := rest.takeWhile (fun x => decide (x ≠ '.' ∧ x ≠ '['))
      consOutcome (.str (String.mk (c :: name))) (parseDiffPath (rest.drop name.length))
termination_by cs => cs.length
decreasing_by
  · simp
  · have h3 := parseQuoted_rest_length rest2 [] key (']' :: rest4) hq
    subst hr
    simp only [List.length_cons] at h3 ⊢
    omega
  · have hcl := takeWhile_length_le (fun x => decide (x ≠ ']')) rest
    subst hr
    simp only [List.length_drop, List.length_cons] at hcl ⊢
    omega
  · have hcl := takeWhile_length_le (fun x => decide (x ≠ '.' ∧ x ≠ '[')) rest
    simp only [List.length_drop, List.length_cons] at hcl ⊢
    omega

/-- `parseDiffPath` on a Go string. -/
def parseDiffPathString (s : String) : ParseOutcome :=
  parseDiffPath s.toList

/-- Modelled from the spec: `resource.PropertyValue` (outside `src/`), a
tagged union over null, bool, number, string, array, object and the three
opaque markers computed, output and secret, whose contents carry no
inspectable children.  Objects are Go maps embedded as association lists;
the numeric payload is opaque to this core and embedded as `Int`.  The Go
zero value `resource.PropertyValue{}` is `.null`. -/
inductive PropertyValue where
  | null
  | bool (b : Bool)
  | number (n : Int)
  | string (s : String)
  | array (xs : List PropertyValue)
  | object (m : List (String × PropertyValue))
  | computed
  | output
  | secret

/-- `PropertyValue.IsNull` (Go `v.V == nil`, true exactly for the
null/absent value). -/
def PropertyValue.IsNull : PropertyValue → Bool
  | .null => true
  | _ => false

/-- Go map lookup returning the zero `PropertyValue` (null) when the key is
absent, as `v.ObjectValue()[key]` does. -/
def objGet (m : List (String × PropertyValue)) (k : String) : PropertyValue :=
  match m.find? (fun kv => kv.1 == k) with
  | some kv => kv.2
  | none => .null

/-- Embeds `getProperty` (source lines 89-110): one step of descent.  An
array is indexed by an in-range non-negative integer element; an object by
a string element; the three opaque markers are returned unchanged; anything
else yields the empty (null) value. -/
def getProperty (key : PathElement) (v : PropertyValue) : PropertyValue :=
  match v with
  | .array xs =>
    match key with
    | .idx i => if i < 0 ∨ (xs.length : Int) ≤ i then .null else xs.getD i.toNat .null
    | _ => .null
  | .object m =>
    match key with
    | .str k => objGet m k
    | _ => .null
  | .computed => v
  | .output => v
  | .secret => v
  | _ => .null

/-- `plugin.DiffKind` restricted to the six kinds the spec's data model
names; the builder's `default: contract.Failf` branch is unreachable over
this closed enumeration. -/
inductive DiffKind where
  | add
  | addReplace
  | delete
  | deleteReplace
  | update
  | updateReplace
deriving DecidableEq, Repr

mutual
/-- Embeds `resource.ValueDiff`: old/new values plus optional (Go nil
pointer) array and object diffs. -/
inductive ValueDiff where
  | mk (Old New : PropertyValue) (Array : Option ArrayDiff) (Object : Option ObjectDiff)
/-- Embeds `resource.ArrayDiff`: four Go maps keyed by `int`, embedded as
association lists. -/
inductive ArrayDiff where
  | mk (Adds Deletes Sames : List (Int × PropertyValue)) (Updates : List (Int × ValueDiff))
/-- Embeds `resource.ObjectDiff`: four Go maps keyed by `PropertyKey`,
embedded as association lists. -/
inductive ObjectDiff where
  | mk (Adds Deletes Sames : List (String × PropertyValue)) (Updates : List (String × ValueDiff))
end

def ValueDiff.Old : ValueDiff → PropertyValue
  | .mk o _ _ _ => o

def ValueDiff.New : ValueDiff → PropertyValue
  | .mk _ n _ _ => n

def ValueDiff.Array : ValueDiff → Option ArrayDiff
  | .mk _ _ a _ => a

def ValueDiff.Object : ValueDiff → Option ObjectDiff
  | .mk _ _ _ o => o

def ArrayDiff.Adds : ArrayDiff → List (Int × PropertyValue)
  | .mk a _ _ _ => a

def ArrayDiff.Deletes : ArrayDiff → List (Int × PropertyValue)
  | .mk _ d _ _ => d

def ArrayDiff.Sames : ArrayDiff → List (Int × PropertyValue)
  | .mk _ _ s _ => s

def ArrayDiff.Updates : ArrayDiff → List (Int × ValueDiff)
  | .mk _ _ _ u => u

def ObjectDiff.Adds : ObjectDiff → List (String × PropertyValue)
  | .mk a _ _ _ => a

def ObjectDiff.Deletes : ObjectDiff → List (String × PropertyValue)
  | .mk _ d _ _ => d

def ObjectDiff.Sames : ObjectDiff → List (String × PropertyValue)
  | .mk _ _ s _ => s

def ObjectDiff.Updates : ObjectDiff → List (String × ValueDiff)
  | .mk _ _ _ u => u

/-- The freshly allocated `&resource.ArrayDiff{...}` with four empty maps. -/
def emptyArrayDiff : ArrayDiff := .mk [] [] [] []

/-- The freshly allocated `&resource.ObjectDiff{...}` with four empty maps. -/
def emptyObjectDiff : ObjectDiff := .mk [] [] [] []

/-- The Go zero `resource.ValueDiff` (null old/new, nil Array/Object). -/
def zeroValueDiff : ValueDiff := .mk .null .null none none

/-- Go map assignment `m[k] = v` on an association list: replaces the
binding when the key is present, otherwise appends it. -/
def mapSet {κ α : Type} [BEq κ] : List (κ × α) → κ → α → List (κ × α)
  | [], k, v => [(k, v)]
  | (k', v') :: rest, k, v =>
    if k' == k then (k, v) :: rest else (k', v') :: mapSet rest k v

/-- Go map lookup `m[k]` with a zero value for absent keys. -/
def mapGetD {κ α : Type} [BEq κ] (m : List (κ × α)) (k : κ) (d : α) : α :=
  match m.find? (fun kv => kv.1 == k) with
  | some kv => kv.2
  | none => d

def ValueDiff.withArray : ValueDiff → ArrayDiff → ValueDiff
  | .mk o n _ ob, a => .mk o n (some a) ob

def ValueDiff.withObject : ValueDiff → ObjectDiff → ValueDiff
  | .mk o n ar _, b => .mk o n ar (some b)

def ArrayDiff.withAdds : ArrayDiff → List (Int × PropertyValue) → ArrayDiff
  | .mk _ d s u, a => .mk a d s u

def ArrayDiff.withDeletes : ArrayDiff → List (Int × PropertyValue) → ArrayDiff
  | .mk a _ s u, d => .mk a d s u

def ArrayDiff.withUpdates : ArrayDiff → List (Int × ValueDiff) → ArrayDiff
  | .mk a d s _, u => .mk a d s u

def ObjectDiff.withAdds : ObjectDiff → List (String × PropertyValue) → ObjectDiff
  | .mk _ d s u, a => .mk a d s u

def ObjectDiff.withDeletes : ObjectDiff → List (String × PropertyValue) → ObjectDiff
  | .mk a _ s u, d => .mk a d s u

def ObjectDiff.withUpdates : ObjectDiff → List (String × ValueDiff) → ObjectDiff
  | .mk a d s _, u => .mk a d s u

/-- Embeds `addDiff` (source lines 112-198).  The Go function mutates
`parent` in place; here the updated parent is returned.  `none` models the
`contract.Require(len(path) > 0)` fault on an empty path (propagated
through the recursion, as a Go panic would abort the whole call). -/
def addDiff : List PathElement → DiffKind → ValueDiff → PropertyValue → PropertyValue → Option ValueDiff
  | [], _, _, _, _ => none
  | el :: rest, kind, parent, oldParent, newParent =>
    let old := getProperty el oldParent
    let new := getProperty el newParent
    match el with
    | .idx i =>
      let arr := parent.Array.getD emptyArrayDiff
      match rest with
      | [] =>
        match kind with
        | .add | .addReplace =>
          some (parent.withArray (arr.withAdds (mapSet arr.Adds i new)))
        | .delete | .deleteReplace =>
          some (parent.withArray (arr.withDeletes (mapSet arr.Deletes i old)))
        | .update | .updateReplace =>
          some (parent.withArray (arr.withUpdates (mapSet arr.Updates i (.mk old new none none))))
      | _ :: _ =>
        if old.IsNull ∧ ¬new.IsNull then
          some (parent.withArray (arr.withAdds (mapSet arr.Adds i new)))
        else if ¬old.IsNull ∧ new.IsNull then
          some (parent.withArray (arr.withDeletes (mapSet arr.Deletes i old)))
        else
          match addDiff rest kind (mapGetD arr.Updates i zeroValueDiff) old new with
          | none => none
          | some ed2 => some (parent.withArray (arr.withUpdates (mapSet arr.Updates i ed2)))
    | .str s =>
      let obj := parent.Object.getD emptyObjectDiff
      match rest with
      | [] =>
        match kind with
        | .add | .addReplace =>
          some (parent.withObject (obj.withAdds (mapSet obj.Adds s new)))
        | .delete | .deleteReplace =>
          some (parent.withObject (obj.withDeletes (mapSet obj.Deletes s old)))
        | .update | .updateReplace =>
          some (parent.withObject (obj.withUpdates (mapSet obj.Updates s (.mk old new none none))))
      | _ :: _ =>
        if old.IsNull ∧ ¬new.IsNull then
          some (parent.withObject (obj.withAdds (mapSet obj.Adds s new)))
        else if ¬old.IsNull ∧ new.IsNull then
          some (parent.withObject (obj.withDeletes (mapSet obj.Deletes s old)))
        else
          match addDiff rest kind (mapGetD obj.Updates s zeroValueDiff) old new with
          | none => none
          | some ed2 => some (parent.withObject (obj.withUpdates (mapSet obj.Updates s ed2)))

/-- One flat change record as handed to `addDiff` by the driver: parsed
path, kind, and the two parent trees the record is resolved against. -/
structure DiffRecord where
  path : List PathElement
  kind : DiffKind
  oldParent : PropertyValue
  newParent : PropertyValue

/-- Folds a list of change records into an accumulator via `addDiff`,
propagating any fault, as the driver's loop does. -/
def foldDiffs : List DiffRecord → ValueDiff → Option ValueDiff
  | [], acc => some acc
  | r :: rest, acc =>
    match addDiff r.path r.kind acc r.oldParent r.newParent with
    | none => none
    | some acc2 => foldDiffs rest acc2

/-- One entry of `step.DetailedDiff`: `plugin.PropertyDiff`'s fields used
by the driver. -/
structure PropertyDiffRec where
  Kind : DiffKind
  InputDiff : Bool

/-- Embeds `translateDetailedDiff` (source lines 200-223).  The step's
detailed diff is `none` when unset (`contract.Assert(step.DetailedDiff !=
nil)` faults, modelled by the outer `none`); a parse failure likewise
faults via `contract.Assert(err == nil)`.  The returned `*resource.ObjectDiff`
is the root accumulator's Object field, `none` when that pointer is nil.
The Go `range` over the record map has no fixed order; the embedding folds
a list of entries in list order. -/
def translateDetailedDiff (detailedDiff : Option (List (String × PropertyDiffRec)))
    (oldOutputs oldInputs newInputs : List (String × PropertyValue)) :
    Option (Option ObjectDiff) :=
  match detailedDiff with
  | none => none
  | some records =>
    let final := records.foldl
      (fun acc pd =>
        match acc with
        | none => none
        | some d =>
          match parseDiffPath pd.1.toList with
          | .ok elements =>
            let olds := if pd.2.InputDiff then PropertyValue.object oldInputs
              else PropertyValue.object oldOutputs
            addDiff elements pd.2.Kind d olds (PropertyValue.object newInputs)
          | _ => none)
      (some zeroValueDiff)
    match final with
    | none => none
    | some d => some d.Object

/-- `true` for an array-index element, `false` for a property-name
element. -/
def PathElement.isIdx : PathElement → Bool
  | .idx _ => true
  | .str _ => false

mutual
/-- The spec's node invariant, checked over the whole tree: every
`ValueDiff` node (this one and, recursively, every node stored in an
`ArrayDiff`/`ObjectDiff` `Updates` map) has at most one of Array Diff and
Object Diff populated. -/
def vdOK : ValueDiff → Bool
  | .mk _ _ arr obj =>
    !(arr.isSome && obj.isSome) &&
    (match arr with
     | none => true
     | some (.mk _ _ _ u) => arrUpdOK u) &&
    (match obj with
     | none => true
     | some (.mk _ _ _ u) => objUpdOK u)
/-- `vdOK` on every entry of an array `Updates` map. -/
def arrUpdOK : List (Int × ValueDiff) → Bool
  | [] => true
  | (_, c) :: rest => vdOK c && arrUpdOK rest
/-- `vdOK` on every entry of an object `Updates` map. -/
def objUpdOK : List (String × ValueDiff) → Bool
  | [] => true
  | (_, c) :: rest => vdOK c && objUpdOK rest
end

/-- A path conforms to a type assignment `τ` from a base address `a`: at
every prefix, the next element's kind (index vs name) is the one `τ` gives
that prefix. -/
def pathConf (τ : List PathElement → Bool) : List PathElement → List PathElement → Prop
  | _, [] => True
  | a, e :: rest => τ a = e.isIdx ∧ pathConf τ (a ++ [e]) rest

mutual
/-- A diff tree is shaped by the type assignment `τ` at address `a`: its
Array Diff may only be allocated where `τ` says index, its Object Diff only
where `τ` says name, recursively at the addresses of nested `Updates`
entries. -/
def vdShaped (τ : List PathElement → Bool) (a : List PathElement) : ValueDiff → Prop
  | .mk _ _ arr obj =>
    (arr.isSome → τ a = true) ∧
    (obj.isSome → τ a = false) ∧
    (match arr with
     | none => True
     | some (.mk _ _ _ u) => arrUpdShaped τ a u) ∧
    (match obj with
     | none => True
     | some (.mk _ _ _ u) => objUpdShaped τ a u)
/-- `vdShaped` on every entry of an array `Updates` map, each one address
step deeper. -/
def arrUpdShaped (τ : List PathElement → Bool) (a : List PathElement) :
    List (Int × ValueDiff) → Prop
  | [] => True
  | (i, c) :: rest => vdShaped τ (a ++ [.idx i]) c ∧ arrUpdShaped τ a rest
/-- `vdShaped` on every entry of an object `Updates` map, each one address
step deeper. -/
def objUpdShaped (τ : List PathElement → Bool) (a : List PathElement) :
    List (String × ValueDiff) → Prop
  | [] => True
  | (s, c) :: rest => vdShaped τ (a ++ [.str s]) c ∧ objUpdShaped τ a rest
end


theorem vdShaped_pair (τ : List PathElement → Bool) (a : List PathElement)
    (o n : PropertyValue) : vdShaped τ a (.mk o n none none) := by
  rw [vdShaped.eq_def]
  exact ⟨by simp, by simp, trivial, trivial⟩

theorem vdShaped_zero (τ : List PathElement → Bool) (a : List PathElement) :
    vdShaped τ a zeroValueDiff := vdShaped_pair τ a .null .null

theorem mapGetD_cons {κ α : Type} [BEq κ] (k' : κ) (v' : α)
    (rest : List (κ × α)) (k : κ) (d : α) :
    mapGetD ((k', v') :: rest) k d = if k' == k then v' else mapGetD rest k d := by
  cases h : (k' == k) <;> simp [mapGetD, List.find?, h]

theorem arrUpdShaped_nil (τ : List PathElement → Bool) (a : List PathElement) :
    arrUpdShaped τ a [] := by
  rw [arrUpdShaped.eq_def]
  trivial

theorem arrUpdShaped_cons (τ : List PathElement → Bool) (a : List PathElement)
    (i : Int) (c : ValueDiff) (rest : List (Int × ValueDiff)) :
    arrUpdShaped τ a ((i, c) :: rest) ↔
      vdShaped τ (a ++ [.idx i]) c ∧ arrUpdShaped τ a rest := by
  rw [arrUpdShaped.eq_def]

theorem objUpdShaped_nil (τ : List PathElement → Bool) (a : List PathElement) :
    objUpdShaped τ a [] := by
  rw [objUpdShaped.eq_def]
  trivial

theorem objUpdShaped_cons (τ : List PathElement → Bool) (a : List PathElement)
    (s : String) (c : ValueDiff) (rest : List (String × ValueDiff)) :
    objUpdShaped τ a ((s, c) :: rest) ↔
      vdShaped τ (a ++ [.str s]) c ∧ objUpdShaped τ a rest := by
  rw [objUpdShaped.eq_def]

theorem arrUpdShaped_mapSet (τ : List PathElement → Bool) (a : List PathElement)
    (u : List (Int × ValueDiff)) (i : Int) (c : ValueDiff)
    (hu : arrUpdShaped τ a u) (hc : vdShaped τ (a ++ [.idx i]) c) :
    arrUpdShaped τ a (mapSet u i c) := by
  induction u with
  | nil => exact (arrUpdShaped_cons τ a i c []).mpr ⟨hc, arrUpdShaped_nil τ a⟩
  | cons hd tl ih =>
    obtain ⟨k', c'⟩ := hd
    obtain ⟨h1, h2⟩ := (arrUpdShaped_cons τ a k' c' tl).mp hu
    simp only [mapSet]
    split
    · exact (arrUpdShaped_cons τ a i c tl).mpr ⟨hc, h2⟩
    · exact (arrUpdShaped_cons τ a k' c' _).mpr ⟨h1, ih h2⟩

theorem arrUpdShaped_mapGetD (τ : List PathElement → Bool) (a : List PathElement)
    (u : List (Int × ValueDiff)) (i : Int) (hu : arrUpdShaped τ a u) :
    vdShaped τ (a ++ [.idx i]) (mapGetD u i zeroValueDiff) := by
  induction u with
  | nil => exact vdShaped_zero τ _
  | cons hd tl ih =>
    obtain ⟨k', c'⟩ := hd
    obtain ⟨h1, h2⟩ := (arrUpdShaped_cons τ a k' c' tl).mp hu
    rw [mapGetD_cons]
    split
    · next hk => exact (eq_of_beq hk) ▸ h1
    · exact ih h2

theorem objUpdShaped_mapSet (τ : List PathElement → Bool) (a : List PathElement)
    (u : List (String × ValueDiff)) (s : String) (c : ValueDiff)
    (hu : objUpdShaped τ a u) (hc : vdShaped τ (a ++ [.str s]) c) :
    objUpdShaped τ a (mapSet u s c) := by
  induction u with
  | nil => exact (objUpdShaped_cons τ a s c []).mpr ⟨hc, objUpdShaped_nil τ a⟩
  | cons hd tl ih =>
    obtain ⟨k', c'⟩ := hd
    obtain ⟨h1, h2⟩ := (objUpdShaped_cons τ a k' c' tl).mp hu
    simp only [mapSet]
    split
    · exact (objUpdShaped_cons τ a s c tl).mpr ⟨hc, h2⟩
    · exact (objUpdShaped_cons τ a k' c' _).mpr ⟨h1, ih h2⟩

theorem objUpdShaped_mapGetD (τ : List PathElement → Bool) (a : List PathElement)
    (u : List (String × ValueDiff)) (s : String) (hu : objUpdShaped τ a u) :
    vdShaped τ (a ++ [.str s]) (mapGetD u s zeroValueDiff) := by
  induction u with
  | nil => exact vdShaped_zero τ _
  | cons hd tl ih =>
    obtain ⟨k', c'⟩ := hd
    obtain ⟨h1, h2⟩ := (objUpdShaped_cons τ a k' c' tl).mp hu
    rw [mapGetD_cons]
    split
    · next hk => exact (eq_of_beq hk) ▸ h1
    · exact ih h2

theorem vdShaped_withArray (τ : List PathElement → Bool) (a : List PathElement)
    (v : ValueDiff) (ad : ArrayDiff) (hτ : τ a = true) (hv : vdShaped τ a v)
    (hu : arrUpdShaped τ a ad.Updates) : vdShaped τ a (v.withArray ad) := by
  obtain ⟨vo, vn, varr, vobj⟩ := v
  obtain ⟨aa, ad', as', au⟩ := ad
  rw [vdShaped.eq_def] at hv ⊢
  simp only [ValueDiff.withArray]
  exact ⟨fun _ => hτ, hv.2.1, by simpa [ArrayDiff.Updates] using hu, hv.2.2.2⟩

theorem vdShaped_withObject (τ : List PathElement → Bool) (a : List PathElement)
    (v : ValueDiff) (od : ObjectDiff) (hτ : τ a = false) (hv : vdShaped τ a v)
    (hu : objUpdShaped τ a od.Updates) : vdShaped τ a (v.withObject od) := by
  obtain ⟨vo, vn, varr, vobj⟩ := v
  obtain ⟨oa, od', os', ou⟩ := od
  rw [vdShaped.eq_def] at hv ⊢
  simp only [ValueDiff.withObject]
  exact ⟨hv.1, fun _ => hτ, hv.2.2.1, by simpa [ObjectDiff.Updates] using hu⟩

theorem vdShaped_arrGet (τ : List PathElement → Bool) (a : List PathElement)
    (v : ValueDiff) (hv : vdShaped τ a v) :
    arrUpdShaped τ a ((v.Array.getD emptyArrayDiff).Updates) := by
  obtain ⟨vo, vn, varr, vobj⟩ := v
  cases varr with
  | none =>
    simp only [ValueDiff.Array, Option.getD, emptyArrayDiff, ArrayDiff.Updates]
    exact arrUpdShaped_nil τ a
  | some ad =>
    obtain ⟨aa, ad', as', au⟩ := ad
    rw [vdShaped.eq_def] at hv
    simpa [ValueDiff.Array, ArrayDiff.Updates] using hv.2.2.1

theorem vdShaped_objGet (τ : List PathElement → Bool) (a : List PathElement)
    (v : ValueDiff) (hv : vdShaped τ a v) :
    objUpdShaped τ a ((v.Object.getD emptyObjectDiff).Updates) := by
  obtain ⟨vo, vn, varr, vobj⟩ := v
  cases vobj with
  | none =>
    simp only [ValueDiff.Object, Option.getD, emptyObjectDiff, ObjectDiff.Updates]
    exact objUpdShaped_nil τ a
  | some od =>
    obtain ⟨oa, od', os', ou⟩ := od
    rw [vdShaped.eq_def] at hv
    simpa [ValueDiff.Object, ObjectDiff.Updates] using hv.2.2.2


@[simp] theorem ArrayDiff.updatesArr_withAdds (ad : ArrayDiff) (x : List (Int × PropertyValue)) :
    (ad.withAdds x).Updates = ad.Updates := by cases ad; rfl

@[simp] theorem ArrayDiff.updatesArr_withDeletes (ad : ArrayDiff) (x : List (Int × PropertyValue)) :
    (ad.withDeletes x).Updates = ad.Updates := by cases ad; rfl

@[simp] theorem ArrayDiff.updatesArr_withUpdates (ad : ArrayDiff) (u : List (Int × ValueDiff)) :
    (ad.withUpdates u).Updates = u := by cases ad; rfl

@[simp] theorem ObjectDiff.updatesObj_withAdds (od : ObjectDiff) (x : List (String × PropertyValue)) :
    (od.withAdds x).Updates = od.Updates := by cases od; rfl

@[simp] theorem ObjectDiff.updatesObj_withDeletes (od : ObjectDiff) (x : List (String × PropertyValue)) :
    (od.withDeletes x).Updates = od.Updates := by cases od; rfl

@[simp] theorem ObjectDiff.updatesObj_withUpdates (od : ObjectDiff) (u : List (String × ValueDiff)) :
    (od.withUpdates u).Updates = u := by cases od; rfl

theorem addDiff_shaped (τ : List PathElement → Bool) :
    ∀ (p a : List PathElement) (k : DiffKind) (v : ValueDiff) (o n : PropertyValue)
      (w : ValueDiff), vdShaped τ a v → pathConf τ a p → addDiff p k v o n = some w →
      vdShaped τ a w := by
  intro p
  induction p with
  | nil =>
    intro a k v o n w hv hc h
    simp [addDiff] at h
  | cons el rest ih =>
    intro a k v o n w hv hc h
    simp only [pathConf] at hc
    obtain ⟨hτ, hcrest⟩ := hc
    cases el with
    | idx i =>
      simp only [PathElement.isIdx] at hτ
      cases rest with
      | nil =>
        cases k <;>
        · simp only [addDiff, Option.some.injEq] at h
          subst h
          first
          | exact vdShaped_withArray τ a v _ hτ hv
              (by simpa using vdShaped_arrGet τ a v hv)
          | exact vdShaped_withArray τ a v _ hτ hv (by simpa using arrUpdShaped_mapSet τ a _ i _ (vdShaped_arrGet τ a v hv) (vdShaped_pair τ _ _ _))
      | cons e2 r2 =>
        simp only [addDiff] at h
        split at h
        · simp only [Option.some.injEq] at h
          subst h
          exact vdShaped_withArray τ a v _ hτ hv (by simpa using vdShaped_arrGet τ a v hv)
        · split at h
          · simp only [Option.some.injEq] at h
            subst h
            exact vdShaped_withArray τ a v _ hτ hv (by simpa using vdShaped_arrGet τ a v hv)
          · split at h
            · exact absurd h (by simp)
            · next ed2 heq =>
              simp only [Option.some.injEq] at h
              subst h
              have hed2 := ih (a ++ [.idx i]) _ _ _ _ ed2
                (arrUpdShaped_mapGetD τ a _ i (vdShaped_arrGet τ a v hv)) hcrest heq
              exact vdShaped_withArray τ a v _ hτ hv (by simpa using arrUpdShaped_mapSet τ a _ i _ (vdShaped_arrGet τ a v hv) hed2)
    | str s =>
      simp only [PathElement.isIdx] at hτ
      cases rest with
      | nil =>
        cases k <;>
        · simp only [addDiff, Option.some.injEq] at h
          subst h
          first
          | exact vdShaped_withObject τ a v _ hτ hv
              (by simpa using vdShaped_objGet τ a v hv)
          | exact vdShaped_withObject τ a v _ hτ hv (by simpa using objUpdShaped_mapSet τ a _ s _ (vdShaped_objGet τ a v hv) (vdShaped_pair τ _ _ _))
      | cons e2 r2 =>
        simp only [addDiff] at h
        split at h
        · simp only [Option.some.injEq] at h
          subst h
          exact vdShaped_withObject τ a v _ hτ hv (by simpa using vdShaped_objGet τ a v hv)
        · split at h
          · simp only [Option.some.injEq] at h
            subst h
            exact vdShaped_withObject τ a v _ hτ hv (by simpa using vdShaped_objGet τ a v hv)
          · split at h
            · exact absurd h (by simp)
            · next ed2 heq =>
              simp only [Option.some.injEq] at h
              subst h
              have hed2 := ih (a ++ [.str s]) _ _ _ _ ed2
                (objUpdShaped_mapGetD τ a _ s (vdShaped_objGet τ a v hv)) hcrest heq
              exact vdShaped_withObject τ a v _ hτ hv (by simpa using objUpdShaped_mapSet τ a _ s _ (vdShaped_objGet τ a v hv) hed2)


mutual
theorem vdShaped_vdOK (τ : List PathElement → Bool) (a : List PathElement) :
    ∀ (v : ValueDiff), vdShaped τ a v → vdOK v = true
  | .mk o n arr obj => fun h => by
    rw [vdShaped.eq_def] at h
    rw [vdOK.eq_def]
    obtain ⟨h1, h2, h3, h4⟩ := h
    refine Bool.and_eq_true_iff.mpr ⟨Bool.and_eq_true_iff.mpr ⟨?_, ?_⟩, ?_⟩
    · cases arr with
      | none => simp
      | some ad =>
        cases obj with
        | none => simp
        | some od =>
          exact absurd (h2 (by simp)) (by simp [h1 (by simp)])
    · cases arr with
      | none => simp
      | some ad =>
        obtain ⟨aa, dd, ss, u⟩ := ad
        exact arrUpdShaped_arrUpdOK τ a u (by simpa using h3)
    · cases obj with
      | none => simp
      | some od =>
        obtain ⟨aa, dd, ss, u⟩ := od
        exact objUpdShaped_objUpdOK τ a u (by simpa using h4)
theorem arrUpdShaped_arrUpdOK (τ : List PathElement → Bool) (a : List PathElement) :
    ∀ (u : List (Int × ValueDiff)), arrUpdShaped τ a u → arrUpdOK u = true
  | [] => fun _ => by rw [arrUpdOK.eq_def]
  | (i, c) :: rest => fun h => by
    obtain ⟨h1, h2⟩ := (arrUpdShaped_cons τ a i c rest).mp h
    rw [arrUpdOK.eq_def]
    exact Bool.and_eq_true_iff.mpr
      ⟨vdShaped_vdOK τ (a ++ [.idx i]) c h1, arrUpdShaped_arrUpdOK τ a rest h2⟩
theorem objUpdShaped_objUpdOK (τ : List PathElement → Bool) (a : List PathElement) :
    ∀ (u : List (String × ValueDiff)), objUpdShaped τ a u → objUpdOK u = true
  | [] => fun _ => by rw [objUpdOK.eq_def]
  | (s, c) :: rest => fun h => by
    obtain ⟨h1, h2⟩ := (objUpdShaped_cons τ a s c rest).mp h
    rw [objUpdOK.eq_def]
    exact Bool.and_eq_true_iff.mpr
      ⟨vdShaped_vdOK τ (a ++ [.str s]) c h1, objUpdShaped_objUpdOK τ a rest h2⟩
end

theorem foldDiffs_shaped (τ : List PathElement → Bool) :
    ∀ (rs : List DiffRecord) (acc : ValueDiff) (d : ValueDiff),
      (∀ r ∈ rs, pathConf τ [] r.path) → vdShaped τ [] acc →
      foldDiffs rs acc = some d → vdShaped τ [] d := by
  intro rs
  induction rs with
  | nil =>
    intro acc d hconf hacc h
    simp only [foldDiffs, Option.some.injEq] at h
    exact h ▸ hacc
  | cons r rest ih =>
    intro acc d hconf hacc h
    simp only [foldDiffs] at h
    split at h
    · exact absurd h (by simp)
    · next acc2 heq =>
      exact ih acc2 d (fun q hq => hconf q (List.mem_cons_of_mem r hq))
        (addDiff_shaped τ r.path [] r.kind acc r.oldParent r.newParent acc2 hacc
          (hconf r (List.mem_cons_self r rest)) heq) h



/-- Modelled from the spec: the quoted-key scan of the section 4.1
grammar — consume characters until an unescaped quote, treating
backslash-quote as an escaped quote; yields the input after the closing
quote, or `none` if it is never found. -/
def wfQuoted : List Char → Option (List Char)
  | [] => none
  | c :: rest =>
    if c = '"' then some rest
    else if c = '\\' ∧ rest.head? = some '"' then wfQuoted rest.tail
    else wfQuoted rest
termination_by cs => cs.length
decreasing_by
  · simp [List.length_tail]
    omega
  · simp

theorem parseQuoted_snd (cs acc : List Char) :
    Option.map Prod.snd (parseQuoted cs acc) = wfQuoted cs := by
  induction cs, acc using parseQuoted.induct with
  | case1 acc => simp [parseQuoted, wfQuoted]
  | case2 rest acc => simp [parseQuoted, wfQuoted]
  | case3 c rest acc hq hesc ih =>
    simp only [parseQuoted, wfQuoted, if_neg hq, if_pos hesc]
    exact ih
  | case4 c rest acc hq hesc ih =>
    simp only [parseQuoted, wfQuoted, if_neg hq, if_neg hesc]
    exact ih

/-- Modelled from the spec: one element of the section 4.1 path grammar —
any number of no-op `.` separators, then a bracketed accessor (quoted
property key or base-10 signed integer index) or a bare property name;
yields the input remaining after the element. -/
def wfElem : List Char → Option (List Char)
  | [] => none
  | c :: rest =>
    if c = '.' then wfElem rest
    else if c = '[' then
      match rest with
      | [] => none
      | c2 :: rest2 =>
        if c2 = '"' then
          match wfQuoted rest2 with
          | some (']' :: r) => some r
          | _ => none
        else
          if (rest.takeWhile (fun x => decide (x ≠ ']'))).length = rest.length then none
          else if (parseInt64 (rest.takeWhile (fun x => decide (x ≠ ']')))).isSome then
            some (rest.drop ((rest.takeWhile (fun x => decide (x ≠ ']'))).length + 1))
          else none
    else
      some (rest.drop ((rest.takeWhile (fun x => decide (x ≠ '.' ∧ x ≠ '['))).length))

theorem wfQuoted_length (cs r : List Char) (h : wfQuoted cs = some r) :
    r.length < cs.length := by
  induction cs using wfQuoted.induct generalizing r with
  | case1 => simp [wfQuoted] at h
  | case2 rest => 
    simp [wfQuoted] at h
    subst h
    simp
  | case3 c rest hq hesc ih =>
    simp only [wfQuoted, if_neg hq, if_pos hesc] at h
    have := ih r h
    have ht : rest.tail.length ≤ rest.length := by simp [List.length_tail]
    simp only [List.length_cons]
    omega
  | case4 c rest hq hesc ih =>
    simp only [wfQuoted, if_neg hq, if_neg hesc] at h
    have := ih r h
    simp only [List.length_cons]
    omega

theorem wfElem_length (cs r : List Char) (h : wfElem cs = some r) :
    r.length < cs.length := by
  induction cs using wfElem.induct generalizing r with
  | case1 => simp [wfElem] at h
  | case2 rest ih =>
    rw [wfElem.eq_def] at h
    simp at h
    have := ih r h
    simp only [List.length_cons]
    omega
  | case3 hbr =>
    rw [wfElem.eq_def] at h
    simp at h
  | case4 rest r2 hw hbr =>
    rw [wfElem.eq_def] at h
    simp [hw] at h
    subst h
    have := wfQuoted_length rest (']' :: r2) hw
    simp only [List.length_cons] at this ⊢
    omega
  | case5 rest hno hbr =>
    rcases hwq : wfQuoted rest with - | r2
    · rw [wfElem.eq_def] at h
      simp [hwq] at h
    · rcases r2 with - | ⟨c3, r3⟩
      · rw [wfElem.eq_def] at h
        simp [hwq] at h
      · by_cases hc3 : c3 = ']'
        · subst hc3
          exact absurd hwq (hno r3)
        · rw [wfElem.eq_def] at h
          simp [hwq, hc3] at h
  | case6 c rest hq hbr hlen =>
    rw [wfElem.eq_def] at h
    simp at hlen
    simp [hq, hlen] at h
  | case7 c rest hq hbr hlen hint =>
    rw [wfElem.eq_def] at h
    simp at hlen hint
    simp [hq, hlen, hint] at h
    obtain ⟨-, rfl⟩ := h
    simp only [List.length_drop, List.length_cons]
    omega
  | case8 c rest hq hbr hlen hint =>
    rw [wfElem.eq_def] at h
    simp at hlen hint
    simp [hq, hlen, hint] at h
  | case9 c rest hc hbr =>
    rw [wfElem.eq_def] at h
    simp [hc, hbr] at h
    subst h
    simp only [List.length_drop, List.length_cons]
    omega

/-- Modelled from the spec: a well-formed path string is a sequence of
grammar elements (section 4.1), applied left to right until the input is
exhausted. -/
def wfSeq : List Char → Bool
  | [] => true
  | c :: rest =>
    match h : wfElem (c :: rest) with
    | some r => wfSeq r
    | none => false
termination_by cs => cs.length
decreasing_by
  · exact wfElem_length _ _ h

set_option maxRecDepth 4096 in
theorem wfElem_parse (cs r : List Char) (h : wfElem cs = some r) :
    ∃ e, parseDiffPath cs = consOutcome e (parseDiffPath r) := by
  induction cs using wfElem.induct generalizing r with
  | case1 => simp [wfElem] at h
  | case2 rest ih =>
    rw [wfElem.eq_def] at h
    simp at h
    obtain ⟨e, he⟩ := ih r h
    refine ⟨e, ?_⟩
    rw [parseDiffPath.eq_def]
    simpa using he
  | case3 hbr =>
    rw [wfElem.eq_def] at h
    simp at h
  | case4 rest r2 hw hbr =>
    rw [wfElem.eq_def] at h
    simp [hw] at h
    subst h
    have hpq : Option.map Prod.snd (parseQuoted rest []) = wfQuoted rest :=
      parseQuoted_snd rest []
    rw [hw] at hpq
    rcases hpe : parseQuoted rest [] with - | ⟨k, r3⟩
    · rw [hpe] at hpq
      simp at hpq
    · rw [hpe] at hpq
      simp at hpq
      subst hpq
      refine ⟨.str (String.mk k), ?_⟩
      rw [parseDiffPath.eq_3, if_neg (by decide), if_pos rfl, if_pos rfl]
      split
      · next heq =>
        rw [hpe] at heq
        simp at heq
      · next key rest3 heq =>
        rw [hpe] at heq
        simp at heq
        obtain ⟨rfl, rfl⟩ := heq
        rfl
  | case5 rest hno hbr =>
    rcases hwq : wfQuoted rest with - | r2
    · rw [wfElem.eq_def] at h
      simp [hwq] at h
    · rcases r2 with - | ⟨c3, r3⟩
      · rw [wfElem.eq_def] at h
        simp [hwq] at h
      · by_cases hc3 : c3 = ']'
        · subst hc3
          exact absurd hwq (hno r3)
        · rw [wfElem.eq_def] at h
          simp [hwq, hc3] at h
  | case6 c rest hq hbr hlen =>
    rw [wfElem.eq_def] at h
    simp at hlen
    simp [hq, hlen] at h
  | case7 c rest hq hbr hlen hint =>
    rw [wfElem.eq_def] at h
    simp at hlen hint
    simp [hq, hlen, hint] at h
    obtain ⟨-, rfl⟩ := h
    obtain ⟨n, hn⟩ := Option.isSome_iff_exists.mp hint
    refine ⟨.idx n, ?_⟩
    rw [parseDiffPath.eq_3, if_neg (by decide), if_pos rfl, if_neg hq]
    simp [hlen, hn]
  | case8 c rest hq hbr hlen hint =>
    rw [wfElem.eq_def] at h
    simp at hlen hint
    simp [hq, hlen, hint] at h
  | case9 c rest hc hbr =>
    rw [wfElem.eq_def] at h
    simp [hc, hbr] at h
    subst h
    rcases rest with - | ⟨c2, r2⟩
    · refine ⟨.str (String.mk [c]), ?_⟩
      rw [parseDiffPath.eq_2, if_neg hc, if_neg hbr]
      simp
    · refine ⟨.str (String.mk (c :: (c2 :: r2).takeWhile (fun x => decide (¬x = '.' ∧ ¬x = '[')))), ?_⟩
      rw [parseDiffPath.eq_3, if_neg hc, if_neg hbr]
      simp

theorem wfSeq_parse : ∀ (cs : List Char), wfSeq cs = true →
    ∃ l, parseDiffPath cs = .ok l ∧ (cs ≠ [] → l ≠ []) := by
  intro cs
  induction cs using wfSeq.induct with
  | case1 =>
    intro _
    exact ⟨[], by simp [parseDiffPath], by simp⟩
  | case2 c rest r h ih =>
    intro hseq
    rw [wfSeq.eq_2] at hseq
    split at hseq
    · next r4 heq =>
      rw [h] at heq
      obtain rfl := (Option.some.inj heq)
      obtain ⟨e, he⟩ := wfElem_parse _ r h
      obtain ⟨l, hl, -⟩ := ih hseq
      refine ⟨e :: l, ?_, by simp⟩
      rw [he, hl]
      rfl
    · exact absurd hseq (by simp)
  | case3 c rest h =>
    intro hseq
    rw [wfSeq.eq_2] at hseq
    split at hseq
    · next r4 heq =>
      rw [h] at heq
      exact absurd heq (by simp)
    · exact absurd hseq (by simp)



/-- C7: for every key element, `getProperty` returns each of the three
opaque markers (computed, output, secret) unchanged — descending into an
opaque value never decomposes it. -/
theorem getProperty_opaque_passthrough (k : PathElement) :
    getProperty k .computed = .computed ∧ getProperty k .output = .output ∧
      getProperty k .secret = .secret :=
  ⟨rfl, rfl, rfl⟩

/-- C8: parsing the eight-character string `["a\"b"]` succeeds with exactly
one element, the three-character string `a"b`: the backslash-quote pair in
a bracketed quoted key is unescaped to a literal quote and all other
characters are copied verbatim. -/
theorem parse_escaped_quote_roundtrip :
    parseDiffPathString "[\"a\\\"b\"]" = .ok [.str "a\"b"] := by
  have h : "[\"a\\\"b\"]".toList = ['[', '"', 'a', '\\', '"', 'b', '"', ']'] := rfl
  rw [parseDiffPathString, h]
  rw [parseDiffPath.eq_3, if_neg (by decide), if_pos rfl, if_pos rfl]
  have hq : parseQuoted ['a', '\\', '"', 'b', '"', ']'] [] = some (['a', '"', 'b'], [']']) := by
    simp [parseQuoted]
  split
  · next heq =>
    rw [hq] at heq
    cases heq
  · next key rest3 heq =>
    rw [hq] at heq
    simp at heq
    obtain ⟨rfl, rfl⟩ := heq
    simp [parseDiffPath, consOutcome]

/-- C9: parsing `["abc` returns the missing-closing-quote parse error and
parsing `[3` returns the missing-closing-bracket parse error; both are
returned as typed errors, not partial paths. -/
theorem parse_unterminated_errors :
    parseDiffPathString "[\"abc" = .err .missingClosingQuote ∧
      parseDiffPathString "[3" = .err .missingClosingBracketIndex := by
  constructor
  · have h : "[\"abc".toList = ['[', '"', 'a', 'b', 'c'] := rfl
    rw [parseDiffPathString, h]
    rw [parseDiffPath.eq_3, if_neg (by decide), if_pos rfl, if_pos rfl]
    have hq : parseQuoted ['a', 'b', 'c'] [] = none := by
      simp [parseQuoted]
    split
    · rfl
    · next key rest3 heq =>
      rw [hq] at heq
      cases heq
  · have h : "[3".toList = ['[', '3'] := rfl
    rw [parseDiffPathString, h]
    simp [parseDiffPath]

/-- C6 (code bug evidence): on the one-character string `[` the Go code
indexes `path[1]` out of range and panics instead of returning a typed
parse error; the embedding records this as the `.fault` outcome. -/
theorem parse_fault_on_lone_open_bracket :
    parseDiffPathString "[" = .fault := by
  have h : "[".toList = ['['] := rfl
  rw [parseDiffPathString, h]
  simp [parseDiffPath]

/-- C10: `[-1]` parses to the single integer element `-1` and `[3]` to `3`;
array lookup returns the absent (null) value for a negative index, an
out-of-range index, or a string element, and returns the element at the
index for an in-range non-negative integer. -/
theorem parse_indices_and_array_lookup :
    parseDiffPathString "[-1]" = .ok [.idx (-1)] ∧
    parseDiffPathString "[3]" = .ok [.idx 3] ∧
    (∀ (xs : List PropertyValue) (i : Int), i < 0 →
      getProperty (.idx i) (.array xs) = .null) ∧
    (∀ (xs : List PropertyValue) (i : Int), (xs.length : Int) ≤ i →
      getProperty (.idx i) (.array xs) = .null) ∧
    (∀ (xs : List PropertyValue) (s : String), getProperty (.str s) (.array xs) = .null) ∧
    (∀ (xs : List PropertyValue) (i : Int), 0 ≤ i → i < (xs.length : Int) →
      getProperty (.idx i) (.array xs) = xs.getD i.toNat .null) := by
  refine ⟨?_, ?_, ?_, ?_, ?_, ?_⟩
  · have h : "[-1]".toList = ['[', '-', '1', ']'] := rfl
    rw [parseDiffPathString, h]
    simp [parseDiffPath, parseInt64, consOutcome]
  · have h : "[3]".toList = ['[', '3', ']'] := rfl
    rw [parseDiffPathString, h]
    simp [parseDiffPath, parseInt64, consOutcome]
  · intro xs i h
    simp [getProperty, h]
  · intro xs i h
    simp [getProperty, h]
  · intro xs s
    simp [getProperty]
  · intro xs i h1 h2
    have : ¬(i < 0 ∨ (xs.length : Int) ≤ i) := by omega
    simp [getProperty, this]

/-- Witness for C10: the in-range lookup returns the stored element and a
negative index yields the absent value, at concrete inputs. -/
theorem parse_indices_and_array_lookup_witness :
    getProperty (.idx 0) (.array [.number 7]) = .number 7 ∧
      getProperty (.idx (-1)) (.array [.number 7]) = .null := by
  constructor
  · exact (parse_indices_and_array_lookup.2.2.2.2.2 [.number 7] 0 (by omega) (by simp)).trans rfl
  · exact parse_indices_and_array_lookup.2.2.1 [.number 7] (-1) (by omega)

/-- C4 (counterexample): with a present-but-empty record set the driver
returns a nil Object Diff (the untouched root's Object pointer), not an
allocated empty one. -/
theorem translate_empty_counterexample :
    translateDetailedDiff (some []) [] [] [] = some none ∧
      some (none : Option ObjectDiff) ≠ some (some emptyObjectDiff) :=
  ⟨rfl, fun h => by simp at h⟩

/-- C4 (amended): when the supplied record set is present but empty,
`translateDetailedDiff` returns the absent/nil Object Diff, for any input
trees. -/
theorem translate_empty_returns_nil
    (oldOutputs oldInputs newInputs : List (String × PropertyValue)) :
    translateDetailedDiff (some []) oldOutputs oldInputs newInputs = some none := rfl

/-- C2: on a single-element path `addDiff` classifies directly from the
record kind — Add/AddReplace store the looked-up new value in Adds,
Delete/DeleteReplace the looked-up old value in Deletes, and
Update/UpdateReplace the {old, new} pair in Updates — and each Replace
kind constructs exactly the same tree as its base kind (the paired
equations have identical right-hand sides). -/
theorem addDiff_leaf_kind_classification (parent : ValueDiff)
    (oldParent newParent : PropertyValue) :
    (∀ i : Int,
      addDiff [.idx i] .add parent oldParent newParent =
        some (parent.withArray ((parent.Array.getD emptyArrayDiff).withAdds
          (mapSet (parent.Array.getD emptyArrayDiff).Adds i (getProperty (.idx i) newParent)))) ∧
      addDiff [.idx i] .addReplace parent oldParent newParent =
        some (parent.withArray ((parent.Array.getD emptyArrayDiff).withAdds
          (mapSet (parent.Array.getD emptyArrayDiff).Adds i (getProperty (.idx i) newParent)))) ∧
      addDiff [.idx i] .delete parent oldParent newParent =
        some (parent.withArray ((parent.Array.getD emptyArrayDiff).withDeletes
          (mapSet (parent.Array.getD emptyArrayDiff).Deletes i (getProperty (.idx i) oldParent)))) ∧
      addDiff [.idx i] .deleteReplace parent oldParent newParent =
        some (parent.withArray ((parent.Array.getD emptyArrayDiff).withDeletes
          (mapSet (parent.Array.getD emptyArrayDiff).Deletes i (getProperty (.idx i) oldParent)))) ∧
      addDiff [.idx i] .update parent oldParent newParent =
        some (parent.withArray ((parent.Array.getD emptyArrayDiff).withUpdates
          (mapSet (parent.Array.getD emptyArrayDiff).Updates i
            (.mk (getProperty (.idx i) oldParent) (getProperty (.idx i) newParent) none none)))) ∧
      addDiff [.idx i] .updateReplace parent oldParent newParent =
        some (parent.withArray ((parent.Array.getD emptyArrayDiff).withUpdates
          (mapSet (parent.Array.getD emptyArrayDiff).Updates i
            (.mk (getProperty (.idx i) oldParent) (getProperty (.idx i) newParent) none none))))) ∧
    (∀ s : String,
      addDiff [.str s] .add parent oldParent newParent =
        some (parent.withObject ((parent.Object.getD emptyObjectDiff).withAdds
          (mapSet (parent.Object.getD emptyObjectDiff).Adds s (getProperty (.str s) newParent)))) ∧
      addDiff [.str s] .addReplace parent oldParent newParent =
        some (parent.withObject ((parent.Object.getD emptyObjectDiff).withAdds
          (mapSet (parent.Object.getD emptyObjectDiff).Adds s (getProperty (.str s) newParent)))) ∧
      addDiff [.str s] .delete parent oldParent newParent =
        some (parent.withObject ((parent.Object.getD emptyObjectDiff).withDeletes
          (mapSet (parent.Object.getD emptyObjectDiff).Deletes s (getProperty (.str s) oldParent)))) ∧
      addDiff [.str s] .deleteReplace parent oldParent newParent =
        some (parent.withObject ((parent.Object.getD emptyObjectDiff).withDeletes
          (mapSet (parent.Object.getD emptyObjectDiff).Deletes s (getProperty (.str s) oldParent)))) ∧
      addDiff [.str s] .update parent oldParent newParent =
        some (parent.withObject ((parent.Object.getD emptyObjectDiff).withUpdates
          (mapSet (parent.Object.getD emptyObjectDiff).Updates s
            (.mk (getProperty (.str s) oldParent) (getProperty (.str s) newParent) none none)))) ∧
      addDiff [.str s] .updateReplace parent oldParent newParent =
        some (parent.withObject ((parent.Object.getD emptyObjectDiff).withUpdates
          (mapSet (parent.Object.getD emptyObjectDiff).Updates s
            (.mk (getProperty (.str s) oldParent) (getProperty (.str s) newParent) none none))))) :=
  ⟨fun _ => ⟨rfl, rfl, rfl, rfl, rfl, rfl⟩, fun _ => ⟨rfl, rfl, rfl, rfl, rfl, rfl⟩⟩

/-- C1: on a path of length at least two, `addDiff` looks the first
element up in both parents and branches only on presence, for every change
kind: old absent/new present stores the new value in Adds with no
recursion; old present/new absent stores the old value in Deletes with no
recursion; when both are present it recurses into the fetched-or-created
entry of Updates with the remaining path.  The accumulator node is
arbitrary, so the same rule applies independently at every depth, and the
kind only rides along. -/
theorem addDiff_nonleaf_presence_rule (rest : List PathElement) (kind : DiffKind)
    (parent : ValueDiff) (oldParent newParent : PropertyValue) (hrest : rest ≠ []) :
    (∀ i : Int,
      ((getProperty (.idx i) oldParent).IsNull = true →
        (getProperty (.idx i) newParent).IsNull = false →
        addDiff (.idx i :: rest) kind parent oldParent newParent =
          some (parent.withArray ((parent.Array.getD emptyArrayDiff).withAdds
            (mapSet (parent.Array.getD emptyArrayDiff).Adds i (getProperty (.idx i) newParent))))) ∧
      ((getProperty (.idx i) oldParent).IsNull = false →
        (getProperty (.idx i) newParent).IsNull = true →
        addDiff (.idx i :: rest) kind parent oldParent newParent =
          some (parent.withArray ((parent.Array.getD emptyArrayDiff).withDeletes
            (mapSet (parent.Array.getD emptyArrayDiff).Deletes i (getProperty (.idx i) oldParent))))) ∧
      ((getProperty (.idx i) oldParent).IsNull = false →
        (getProperty (.idx i) newParent).IsNull = false →
        addDiff (.idx i :: rest) kind parent oldParent newParent =
          (addDiff rest kind (mapGetD (parent.Array.getD emptyArrayDiff).Updates i zeroValueDiff)
              (getProperty (.idx i) oldParent) (getProperty (.idx i) newParent)).map
            (fun ed2 => parent.withArray ((parent.Array.getD emptyArrayDiff).withUpdates
              (mapSet (parent.Array.getD emptyArrayDiff).Updates i ed2))))) ∧
    (∀ s : String,
      ((getProperty (.str s) oldParent).IsNull = true →
        (getProperty (.str s) newParent).IsNull = false →
        addDiff (.str s :: rest) kind parent oldParent newParent =
          some (parent.withObject ((parent.Object.getD emptyObjectDiff).withAdds
            (mapSet (parent.Object.getD emptyObjectDiff).Adds s (getProperty (.str s) newParent))))) ∧
      ((getProperty (.str s) oldParent).IsNull = false →
        (getProperty (.str s) newParent).IsNull = true →
        addDiff (.str s :: rest) kind parent oldParent newParent =
          some (parent.withObject ((parent.Object.getD emptyObjectDiff).withDeletes
            (mapSet (parent.Object.getD emptyObjectDiff).Deletes s (getProperty (.str s) oldParent))))) ∧
      ((getProperty (.str s) oldParent).IsNull = false →
        (getProperty (.str s) newParent).IsNull = false →
        addDiff (.str s :: rest) kind parent oldParent newParent =
          (addDiff rest kind (mapGetD (parent.Object.getD emptyObjectDiff).Updates s zeroValueDiff)
              (getProperty (.str s) oldParent) (getProperty (.str s) newParent)).map
            (fun ed2 => parent.withObject ((parent.Object.getD emptyObjectDiff).withUpdates
              (mapSet (parent.Object.getD emptyObjectDiff).Updates s ed2))))) := by
  rcases rest with - | ⟨e2, r2⟩
  · exact absurd rfl hrest
  · refine ⟨fun i => ⟨?_, ?_, ?_⟩, fun s => ⟨?_, ?_, ?_⟩⟩
    · intro h1 h2
      simp [addDiff, h1, h2]
    · intro h1 h2
      simp [addDiff, h1, h2]
    · intro h1 h2
      rw [addDiff.eq_def]
      cases haux : addDiff (e2 :: r2) kind
          (mapGetD (parent.Array.getD emptyArrayDiff).Updates i zeroValueDiff)
          (getProperty (.idx i) oldParent) (getProperty (.idx i) newParent) <;>
        simp [h1, h2, haux]
    · intro h1 h2
      simp [addDiff, h1, h2]
    · intro h1 h2
      simp [addDiff, h1, h2]
    · intro h1 h2
      rw [addDiff.eq_def]
      cases haux : addDiff (e2 :: r2) kind
          (mapGetD (parent.Object.getD emptyObjectDiff).Updates s zeroValueDiff)
          (getProperty (.str s) oldParent) (getProperty (.str s) newParent) <;>
        simp [h1, h2, haux]

/-- Witness for C1 at the spec's example: path `["a","b"]`, kind Update,
old tree `{"a": {"b": 1}}`, new tree `{}` — the whole `"a"` subtree is
recorded in Deletes without recursing into `"b"`. -/
theorem addDiff_nonleaf_presence_rule_witness :
    addDiff [.str "a", .str "b"] .update zeroValueDiff
      (.object [("a", .object [("b", .number 1)])]) (.object []) =
      some (.mk .null .null none (some (.mk [] [("a", .object [("b", .number 1)])] [] []))) := by
  have h := ((addDiff_nonleaf_presence_rule [.str "b"] .update zeroValueDiff
    (.object [("a", .object [("b", .number 1)])]) (.object [])
    (by simp)).2 "a").2.1 (by rfl) (by rfl)
  rw [h]
  rfl

/-- C5: every non-empty path string conforming to the spec's path grammar
(`wfSeq`) parses successfully, and the resulting Path is never the empty
sequence of elements. -/
theorem parse_wellFormed_ok_nonempty (cs : List Char) (hne : cs ≠ [])
    (hwf : wfSeq cs = true) :
    ∃ l, parseDiffPath cs = .ok l ∧ l ≠ [] := by
  obtain ⟨l, hl, hne2⟩ := wfSeq_parse cs hwf
  exact ⟨l, hl, hne2 hne⟩

/-- Witness for C5 at the one-character well-formed path `a`. -/
theorem parse_wellFormed_ok_nonempty_witness :
    ∃ l, parseDiffPath ['a'] = .ok l ∧ l ≠ [] := by
  have hwf : wfSeq ['a'] = true := by
    rw [wfSeq.eq_2]
    split
    · next r heq =>
      rw [show wfElem ['a'] = some [] from rfl] at heq
      obtain rfl := Option.some.inj heq
      exact wfSeq.eq_1
    · next heq =>
      rw [show wfElem ['a'] = some [] from rfl] at heq
      cases heq
  exact parse_wellFormed_ok_nonempty ['a'] (by simp) hwf

/-- C3 (counterexample): two records whose paths type the root differently
(index `0` as array, name `a` as object) make `addDiff` allocate both an
Array Diff and an Object Diff on the root node of the fold's result, so
the at-most-one invariant fails for this record set as the claim is
universally stated. -/
theorem addDiff_atMostOne_counterexample :
    foldDiffs [⟨[.idx 0], .add, .null, .null⟩, ⟨[.str "a"], .add, .null, .null⟩]
        zeroValueDiff =
      some (.mk .null .null (some (.mk [(0, .null)] [] [] []))
        (some (.mk [("a", .null)] [] [] []))) ∧
    vdOK (.mk .null .null (some (.mk [(0, .null)] [] [] []))
        (some (.mk [("a", .null)] [] [] []))) = false := by
  constructor
  · rfl
  · rw [vdOK.eq_def]
    rfl

/-- C3 (amended): when the record paths are type-coherent — a single
assignment `τ` of array-vs-object to each address is followed by every
path — folding them into a fresh accumulator via `addDiff` yields a tree
in which every Value Diff node has at most one of Array Diff and Object
Diff populated (`vdOK`). -/
theorem addDiff_atMostOne_of_typeCoherent (rs : List DiffRecord)
    (τ : List PathElement → Bool) (d : ValueDiff)
    (hconf : ∀ r ∈ rs, pathConf τ [] r.path)
    (h : foldDiffs rs zeroValueDiff = some d) : vdOK d = true :=
  vdShaped_vdOK τ [] d (foldDiffs_shaped τ rs zeroValueDiff d hconf (vdShaped_zero τ []) h)

/-- Witness for the amended C3 at a concrete coherent record set. -/
theorem addDiff_atMostOne_of_typeCoherent_witness :
    vdOK (.mk .null .null none (some (.mk [("a", .null)] [] [] []))) = true := by
  refine addDiff_atMostOne_of_typeCoherent [⟨[.str "a"], .add, .null, .null⟩]
    (fun _ => false) _ ?_ rfl
  intro r hr
  simp at hr
  subst hr
  simp [pathConf, PathElement.isIdx]

end DetailedDiff
